import Mathlib

/-!
# Verification of the `LazyCollection` lazy-sequence pipeline

Shallow embedding of `src/main.py` (`class LazyCollection`).  A pipeline
stage is modelled by the list of elements it yields when fully drained;
where a claim is about how many elements a stage *pulls* from its
upstream, the embedding also returns the pull count, mirroring the
control flow of the Python generator bodies element by element.

Python integers are `Int`; loop indices produced by `enumerate` are `Nat`
cast to `Int` where compared against a user-supplied count.
-/

set_option autoImplicit false

namespace LazyCollection

variable {α : Type} {β : Type} {κ : Type}

/-! ## `take` (src/main.py lines 46-55)

```
def take_generator():
    for i, item in enumerate(self):
        if i >= n:
            break
        yield item
```

`take_go n i s` runs the loop body with `enumerate` counter `i` on the
remaining upstream elements `s`.  It returns the elements yielded and the
number of elements drawn from the upstream.  In the `cons` case the `for`
statement has already drawn one element (that is the pull), and only then
is `i >= n` tested; `break` discards the drawn element. -/

def take_go (n : Int) : Nat → List α → List α × Nat
  | _, [] => ([], 0)
  | i, x :: xs =>
    if (i : Int) ≥ n then ([], 1)
    else
      let r := take_go n (i + 1) xs
      (x :: r.1, r.2 + 1)

/-- Fully draining `self.take(n)`: yielded elements and upstream pulls. -/
def take_run (n : Int) (s : List α) : List α × Nat :=
  take_go n 0 s

/-- The elements yielded by `self.take(n)`. -/
def take_y (n : Int) (s : List α) : List α :=
  (take_run n s).1

/-! ## `skip` (src/main.py lines 57-65)

```
def skip_generator():
    for i, item in enumerate(self):
        if i >= n:
            yield item
```

The loop never breaks: it drains the whole upstream, yielding the
elements whose zero-based index is `>= n`. -/

def skip_go (n : Int) : Nat → List α → List α
  | _, [] => []
  | i, x :: xs =>
    if (i : Int) ≥ n then x :: skip_go n (i + 1) xs
    else skip_go n (i + 1) xs

/-- The elements yielded by `self.skip(n)`. -/
def skip_y (n : Int) (s : List α) : List α :=
  skip_go n 0 s

/-! ## `chunk` (src/main.py lines 71-84)

```
def chunk_generator():
    chunk = []
    for item in self:
        chunk.append(item)
        if len(chunk) == size:
            yield chunk
            chunk = []
    if chunk:  # yield the last partial chunk
        yield chunk
```

There is no validation of `size` and no `raise` anywhere in the method,
so the embedding is a total function. -/

def chunk_go (size : Int) : List α → List α → List (List α)
  | cur, [] => if cur.isEmpty then [] else [cur]
  | cur, x :: xs =>
    let cur' := cur ++ [x]
    if (cur'.length : Int) = size then cur' :: chunk_go size [] xs
    else chunk_go size cur' xs

/-- The groups yielded by `self.chunk(size)`. -/
def chunk_run (size : Int) (s : List α) : List (List α) :=
  chunk_go size [] s

/-! ## `paginate` (src/main.py lines 86-88)

```
return self.skip((page - 1) * per_page).take(per_page)
``` -/

def paginate_y (page per_page : Int) (s : List α) : List α :=
  take_y per_page (skip_y ((page - 1) * per_page) s)

/-! ## Terminal operators `reduce`, `first`, `any`, `all`, `count`,
`collect` (src/main.py lines 67-69, 90-112)

`reduce(reducer, initial)` is `functools.reduce`, a left fold seeded with
`initial`.  `first` pulls at most one element (`for item in self: return
item` / `return None`); the second component is its pull count.
`any(predicate=None)` substitutes `lambda x: True` for a missing
predicate. -/

def reduce_run (reducer : β → α → β) (initial : β) (s : List α) : β :=
  s.foldl reducer initial

def first_run : List α → Option α × Nat
  | [] => (none, 0)
  | x :: _ => (some x, 1)

def any_run (predicate : Option (α → Bool)) (s : List α) : Bool :=
  s.any (match predicate with
    | none => fun _ => true
    | some p => p)

def all_run (predicate : α → Bool) (s : List α) : Bool :=
  s.all predicate

def collect_run (s : List α) : List α :=
  s

def count_run (s : List α) : Nat :=
  s.length

/-! ## `filter` composed with `first`

`self.filter(predicate).first()` : `first` pulls one element from the
filter generator `(item for item in self if predicate(item))`, which in
turn draws root elements until the predicate holds.  `first_filter p s`
returns the result of `first` together with the number of elements drawn
from the root source `s`. -/

def first_filter (p : α → Bool) : List α → Option α × Nat
  | [] => (none, 0)
  | x :: xs =>
    if p x then (some x, 1)
    else
      let r := first_filter p xs
      (r.1, r.2 + 1)

/-- The elements yielded by `self.filter(predicate)`. -/
def filter_y (p : α → Bool) (s : List α) : List α :=
  s.filter p

/-! ## `group_by` (src/main.py lines 114-122)

```
result = {}
for item in self:
    key = key_func(item)
    if key not in result:
        result[key] = []
    result[key].append(item)
return result
```

A Python `dict` preserves insertion order, so it is embedded as an
association list; `insertGroup k x` appends `x` to the list stored under
`k`, adding the key at the end if absent (exactly the effect of the loop
body on the ordered dict). -/

def insertGroup [DecidableEq κ] (k : κ) (x : α) : List (κ × List α) → List (κ × List α)
  | [] => [(k, [x])]
  | (k', g) :: rest =>
    if k' = k then (k', g ++ [x]) :: rest
    else (k', g) :: insertGroup k x rest

def group_by [DecidableEq κ] (key_func : α → κ) (s : List α) : List (κ × List α) :=
  s.foldl (fun acc x => insertGroup (key_func x) x acc) []

/-- Keys of `s` in first-occurrence order (used to state the group_by
claims; it is not part of the source, only of the property). -/
def firstSeen [DecidableEq κ] : List κ → List κ
  | [] => []
  | k :: ks => k :: (firstSeen ks).filter (fun k' => k' ≠ k)

/-! ## `range` (src/main.py lines 145-150) and Python `range`

```
if stop is None:
    return cls(range(0, start, step))
return cls(range(start, stop, step))
```

`pyRange` embeds the CPython built-in `range(start, stop, step)`.  Its
length follows CPython's `get_len_of_range` (`rangeobject.c`): for a
positive step, `1 + (stop - start - 1) / step` when `start < stop` and
`0` otherwise, symmetrically for a negative step; the `i`-th element is
`start + step*i`.  (CPython raises `ValueError` for `step == 0`; no claim
exercises that case and the embedding returns the empty list there.) -/

def pyRangeLen (start stop step : Int) : Nat :=
  if 0 < step then
    if start < stop then ((stop - start - 1) / step).toNat + 1 else 0
  else if step < 0 then
    if stop < start then ((start - stop - 1) / (-step)).toNat + 1 else 0
  else 0

def pyRange (start stop step : Int) : List Int :=
  (List.range (pyRangeLen start stop step)).map (fun i : Nat => start + step * (i : Int))

/-- `LazyCollection.range(start, stop=None, step=1)`. -/
def lcRange (start : Int) (stop : Option Int) (step : Int) : List Int :=
  match stop with
  | none => pyRange 0 start step
  | some st => pyRange start st step

/-! ## Iterables, iterators and restartability (src/main.py lines 26-40)

`__init__` stores the argument as `self._source`; `__iter__` returns
`iter(self._source)`.  What `iter` returns depends on the source:

* a *restartable* source (a `range` object, a list) hands out a fresh
  iterator each time, so a second full iteration restarts;
* a *generator object* (what every operator such as `map` or `filter`
  wraps, since they pass a generator expression to the constructor) is
  its own iterator: a second iteration resumes where the first stopped,
  and after exhaustion yields nothing.

`PySource` models the stored `_source`; `drainLC` models one full
iteration (`list(collection)`), returning the yielded elements and the
source state afterwards. -/

inductive PySource (α : Type) : Type where
  | restartable : List α → PySource α
  | generator : List α → PySource α
deriving DecidableEq

def PySource.elems : PySource α → List α
  | .restartable d => d
  | .generator r => r

def drainLC : PySource α → List α × PySource α
  | .restartable d => (d, .restartable d)
  | .generator r => (r, .generator [])

/-- `self.map(t)` wraps the generator expression
`(t(item) for item in self)` in a new `LazyCollection`: its source is a
generator object over the transformed remaining upstream elements. -/
def mapLC (t : α → β) (src : PySource α) : PySource β :=
  .generator (src.elems.map t)

/-- `self.filter(p)` wraps `(item for item in self if p(item))`. -/
def filterLC (p : α → Bool) (src : PySource α) : PySource α :=
  .generator (src.elems.filter p)

/-! ## General lemmas about the embedded operators -/

theorem take_go_fst (n : Int) (s : List α) :
    ∀ i : Nat, (take_go n i s).1 = s.take (n - i).toNat := by
  induction s with
  | nil => intro i; simp [take_go]
  | cons x xs ih =>
    intro i
    by_cases h : (i : Int) ≥ n
    · have h0 : (n - (i : Int)).toNat = 0 := by omega
      simp [take_go, h, h0]
    · have h1 : (n - (i : Int)).toNat = (n - ((i + 1 : Nat) : Int)).toNat + 1 := by
        push_cast; omega
      simp [take_go, h, ih, h1]

theorem take_go_snd (n : Int) (s : List α) :
    ∀ i : Nat, (take_go n i s).2 = min s.length ((n - i).toNat + 1) := by
  induction s with
  | nil => intro i; rfl
  | cons x xs ih =>
    intro i
    by_cases h : (i : Int) ≥ n
    · have h0 : (n - (i : Int)).toNat = 0 := by omega
      simp [take_go, h, h0]
    · have h1 : (n - (i : Int)).toNat = (n - ((i + 1 : Nat) : Int)).toNat + 1 := by
        push_cast; omega
      simp [take_go, h, ih, h1]
      omega

theorem take_y_spec (n : Int) (s : List α) : take_y n s = s.take n.toNat := by
  have h := take_go_fst n s 0
  simpa [take_y, take_run] using h

theorem take_pulls_spec (n : Int) (s : List α) :
    (take_run n s).2 = min s.length (n.toNat + 1) := by
  have h := take_go_snd n s 0
  simpa [take_run] using h

theorem skip_go_eq_drop (n : Int) (s : List α) :
    ∀ i : Nat, skip_go n i s = s.drop (n - i).toNat := by
  induction s with
  | nil => intro i; simp [skip_go]
  | cons x xs ih =>
    intro i
    by_cases h : (i : Int) ≥ n
    · have h0 : (n - (i : Int)).toNat = 0 := by omega
      have h2 : (n - ((i : Int) + 1)).toNat = 0 := by omega
      simp [skip_go, h, h0, ih, h2]
    · have h1 : (n - (i : Int)).toNat = (n - ((i + 1 : Nat) : Int)).toNat + 1 := by
        push_cast; omega
      simp [skip_go, h, ih, h1]

theorem skip_y_spec (n : Int) (s : List α) : skip_y n s = s.drop n.toNat := by
  have h := skip_go_eq_drop n s 0
  simpa [skip_y] using h

theorem chunk_go_nonpos (size : Int) (hsize : size ≤ 0) (s : List α) :
    ∀ cur : List α, chunk_go size cur s = if (cur ++ s).isEmpty then [] else [cur ++ s] := by
  induction s with
  | nil =>
    intro cur
    simp only [List.append_nil]
    rfl
  | cons x xs ih =>
    intro cur
    have hne : ¬ (((cur ++ [x]).length : Int) = size) := by
      have hlen : (cur ++ [x]).length = cur.length + 1 := by simp
      rw [hlen]; push_cast; omega
    simp only [chunk_go, if_neg hne]
    rw [ih (cur ++ [x])]
    simp

theorem first_run_spec (s : List α) : first_run s = (s.head?, min 1 s.length) := by
  cases s with
  | nil => rfl
  | cons x xs =>
    simp [first_run, Prod.ext_iff]

theorem first_filter_spec (p : α → Bool) (s : List α) :
    first_filter p s = ((s.filter p).head?, min (s.findIdx p + 1) s.length) := by
  induction s with
  | nil => rfl
  | cons x xs ih =>
    by_cases h : p x
    · simp [first_filter, h, List.findIdx_cons, Prod.ext_iff]
    · simp [first_filter, h, ih, List.findIdx_cons, Prod.ext_iff]
      omega

theorem first_filter_append (p : α → Bool) (x : α) (rest : List α) (pre : List α)
    (hall : ∀ y ∈ pre, p y = false) (hx : p x = true) :
    first_filter p (pre ++ x :: rest) = (some x, pre.length + 1) := by
  induction pre with
  | nil => simp [first_filter, hx]
  | cons a pre ih =>
    have ha : p a = false := hall a (by simp)
    have hrec := ih (fun y hy => hall y (by simp [hy]))
    simp [first_filter, ha, hrec]

theorem first_filter_on_range (p : Int → Bool) (g : Nat → Int) (L j : Nat)
    (hj : j < L) (hpre : ∀ i, i < j → p (g i) = false) (hx : p (g j) = true) :
    first_filter p ((List.range L).map g) = (some (g j), j + 1) := by
  have hsplit : List.range L =
      List.range j ++
        (0 :: List.map Nat.succ (List.range (L - j - 1))).map (fun t => j + t) := by
    rw [← List.range_succ_eq_map, ← List.range_add]
    congr 1
    omega
  rw [hsplit, List.map_append, List.map_cons, List.map_cons]
  have hall : ∀ y ∈ (List.range j).map g, p y = false := by
    intro y hy
    simp only [List.mem_map, List.mem_range] at hy
    obtain ⟨i, hi, rfl⟩ := hy
    exact hpre i hi
  have happ := first_filter_append p (g (j + 0))
      (((List.range (L - j - 1)).map Nat.succ).map (fun t => j + t) |>.map g)
      ((List.range j).map g) hall (by simpa using hx)
  rw [happ]
  simp

/-! ## Claim theorems -/

/-- C1 counterexample: draining `take(2)` over the four-element source
`[10, 20, 30, 40]` draws 3 elements from the source, not at most 2: the
`for` loop draws element index 2 before testing `i >= n` and breaking, so
there is one pull past the nth element. -/
theorem take_pulls_counterexample :
    take_y 2 ([10, 20, 30, 40] : List Int) = [10, 20] ∧
    (take_run 2 ([10, 20, 30, 40] : List Int)).2 = 3 ∧
    ¬ (take_run 2 ([10, 20, 30, 40] : List Int)).2 ≤ 2 := by
  decide

/-- C1 (amended): `take(n)` yields exactly the first `max(n,0)` upstream
elements (so an empty sequence for every `n ≤ 0`), and fully draining it
draws `min(length, max(n,0) + 1)` elements from the source: at most one
probe pull beyond the nth, never more — in particular the drained result
only depends on the first `max(n,0) + 1` source elements, so evaluation
is bounded even on an infinite source. -/
theorem take_yields_at_most_n (n : Int) (s : List α) :
    take_y n s = s.take n.toNat ∧
    (take_run n s).2 = min s.length (n.toNat + 1) ∧
    take_run n s = take_run n (s.take (n.toNat + 1)) := by
  refine ⟨take_y_spec n s, take_pulls_spec n s, ?_⟩
  have h1 : (take_run n (s.take (n.toNat + 1))).1 = (take_run n s).1 := by
    have ha := take_y_spec n (s.take (n.toNat + 1))
    have hb := take_y_spec n s
    simp only [take_y] at ha hb
    rw [ha, hb, List.take_take]
    congr 1
    omega
  have h2 : (take_run n (s.take (n.toNat + 1))).2 = (take_run n s).2 := by
    rw [take_pulls_spec, take_pulls_spec, List.length_take]
    omega
  exact Prod.ext h1.symm h2.symm

/-- C2 counterexample: `chunk(0)` over the finite source `[1, 2, 3]`
does not fail at evaluation; the `len(chunk) == size` test never fires,
so the whole source is yielded as one final partial group. -/
theorem chunk_zero_counterexample :
    chunk_run 0 ([1, 2, 3] : List Int) = [[1, 2, 3]] ∧
    chunk_run 0 ([1, 2, 3] : List Int) ≠ [] := by
  decide

/-- C2 (amended): `chunk(size)` performs no validation of `size` and
raises nothing; for every `size ≤ 0` and every finite source, evaluation
succeeds and yields the entire source as a single group (no group for an
empty source), because the accumulated group's length, always `≥ 1`,
never equals a non-positive `size`. -/
theorem chunk_nonpos_no_error (size : Int) (hsize : size ≤ 0) (s : List α) :
    chunk_run size s = if s.isEmpty then [] else [s] := by
  have h := chunk_go_nonpos size hsize s []
  simpa [chunk_run] using h

/-- C2 witness: `chunk(-1)` over `[5]` yields `[[5]]`. -/
theorem chunk_nonpos_no_error_witness :
    chunk_run (-1) ([5] : List Int) = [[5]] := by
  have h := chunk_nonpos_no_error (-1) (by decide) ([5] : List Int)
  simpa using h

/-- C3 (confirmed): for every finite sequence `S` and all non-negative
`a`, `b`, the sequence `S.skip(a).take(b)` yields exactly the elements of
`S` at zero-based positions `[a, a + b)`, clipped to the available
length, in order: its `i`-th element is the `(a+i)`-th element of `S`
when `i < b`, and its length is `min b (S.length - a)`. -/
theorem skip_take_composition (S : List α) (a b : Nat) :
    (∀ i : Nat, (take_y (b : Int) (skip_y (a : Int) S))[i]? =
      if i < b then S[a + i]? else none) ∧
    (take_y (b : Int) (skip_y (a : Int) S)).length = min b (S.length - a) := by
  have hy : take_y (b : Int) (skip_y (a : Int) S) = (S.drop a).take b := by
    rw [take_y_spec, skip_y_spec]
    simp
  constructor
  · intro i
    rw [hy, List.getElem?_take]
    by_cases hib : i < b
    · rw [if_pos hib, if_pos hib, List.getElem?_drop]
    · rw [if_neg hib, if_neg hib]
  · rw [hy]
    simp

/-- C7 (confirmed): on an empty sequence the terminal operators return
defined values: `reduce(reducer, initial)` returns `initial` for every
reducer and every initial value, `all(predicate)` returns `True` for
every predicate, and `any()` with the default predicate returns
`False`. -/
theorem empty_terminal_semantics (reducer : β → α → β) (initial : β) (p : α → Bool) :
    reduce_run reducer initial ([] : List α) = initial ∧
    all_run p ([] : List α) = true ∧
    any_run none ([] : List α) = false :=
  ⟨rfl, rfl, rfl⟩

/-- C4 (confirmed): `first()` returns the first element, or `None` on an
empty sequence, drawing exactly one element (zero when already empty);
composed with `filter`, `first()` draws root elements only up to and
including the first element satisfying the predicate (index of the first
match plus one, or the whole source if none matches); concretely,
`range(-1000000, 1000000).filter(lambda x: x > 0).first()` returns `1`
after only 1000002 of the 2000000 source elements have been drawn. -/
theorem first_short_circuit (s : List α) (p : α → Bool) :
    first_run s = (s.head?, min 1 s.length) ∧
    first_filter p s = ((s.filter p).head?, min (s.findIdx p + 1) s.length) ∧
    first_filter (fun x : Int => decide (0 < x)) (lcRange (-1000000) (some 1000000) 1) =
      (some 1, 1000002) ∧
    (lcRange (-1000000) (some 1000000) 1).length = 2000000 := by
  have hlen : pyRangeLen (-1000000) 1000000 1 = 2000000 := by decide
  have hrange : lcRange (-1000000) (some 1000000) 1 =
      (List.range 2000000).map (fun i : Nat => -1000000 + 1 * (i : Int)) := by
    have h0 : lcRange (-1000000) (some 1000000) 1 = pyRange (-1000000) 1000000 1 := rfl
    rw [h0, pyRange, hlen]
  refine ⟨first_run_spec s, first_filter_spec p s, ?_, ?_⟩
  · rw [hrange]
    have hpre : ∀ i, i < 1000001 →
        (fun x : Int => decide (0 < x)) ((fun i : Nat => -1000000 + 1 * (i : Int)) i) = false := by
      intro i hi
      simp only [decide_eq_false_iff_not, not_lt]
      omega
    have hx : (fun x : Int => decide (0 < x)) ((fun i : Nat => -1000000 + 1 * (i : Int)) 1000001) = true := by
      simp only [decide_eq_true_eq]
      norm_num
    have h := first_filter_on_range (fun x : Int => decide (0 < x))
        (fun i : Nat => -1000000 + 1 * (i : Int)) 2000000 1000001 (by norm_num) hpre hx
    rw [h]
    norm_num
  · rw [hrange]
    simp

/-- C5 (confirmed): `paginate(page, per_page)` yields exactly what
`skip((page - 1) * per_page).take(per_page)` yields (it is that very
composition); a page past the end of a finite upstream yields the empty
sequence rather than an error; and
`range(100).paginate(page=3, per_page=10)` yields `[20, ..., 29]`. -/
theorem paginate_skip_take (s : List α) (page per_page : Int) :
    paginate_y page per_page s = take_y per_page (skip_y ((page - 1) * per_page) s) ∧
    ((s.length : Int) ≤ (page - 1) * per_page → paginate_y page per_page s = []) ∧
    paginate_y 3 10 (lcRange 100 none 1) =
      [20, 21, 22, 23, 24, 25, 26, 27, 28, 29] := by
  refine ⟨rfl, ?_, by decide⟩
  intro h
  rw [paginate_y, take_y_spec, skip_y_spec]
  have hge : s.length ≤ ((page - 1) * per_page).toNat := by omega
  rw [List.drop_eq_nil_of_le hge]
  simp

/-- C5 witness: page 4 of size 2 over the three-element source
`[1, 2, 3]` is past the end and yields the empty sequence. -/
theorem paginate_skip_take_witness :
    paginate_y 4 2 ([1, 2, 3] : List Int) = [] :=
  (paginate_skip_take ([1, 2, 3] : List Int) 4 2).2.1 (by decide)

/-- C9 (confirmed): for every `n ≤ 0`, including negative `n`, `skip(n)`
yields every upstream element unchanged and in order: the yield condition
`i >= n` holds at every zero-based index. -/
theorem skip_nonpos_yields_all (n : Int) (hn : n ≤ 0) (s : List α) :
    skip_y n s = s := by
  rw [skip_y_spec]
  have h0 : n.toNat = 0 := by omega
  simp [h0]

/-- C9 witness: `skip(-2)` over `[7, 8, 9]` yields `[7, 8, 9]`. -/
theorem skip_nonpos_yields_all_witness :
    skip_y (-2) ([7, 8, 9] : List Int) = [7, 8, 9] :=
  skip_nonpos_yields_all (-2) (by decide) [7, 8, 9]

/-- C10 (confirmed): with `stop` omitted, `range(start, step=...)` yields
exactly the standard numeric `range(0, start, step)`: a zero or negative
single argument (with a positive step) yields the empty sequence, a
natural single argument with the default step yields `0, 1, ..., start-1`,
and an explicitly supplied step is applied, e.g. `range(7, step=2)`
yields `0, 2, 4, 6`. -/
theorem range_single_argument (start step : Int) (n : Nat) :
    lcRange start none step = pyRange 0 start step ∧
    (start ≤ 0 → 0 < step → lcRange start none step = []) ∧
    lcRange (n : Int) none 1 = (List.range n).map (fun i : Nat => (i : Int)) ∧
    lcRange 7 none 2 = [0, 2, 4, 6] := by
  refine ⟨rfl, ?_, ?_, by decide⟩
  · intro h1 h2
    have hlen : pyRangeLen 0 start step = 0 := by
      simp only [pyRangeLen, if_pos h2]
      rw [if_neg (by omega)]
    show pyRange 0 start step = []
    rw [pyRange, hlen]
    simp
  · have hlen : pyRangeLen 0 (n : Int) 1 = n := by
      simp only [pyRangeLen]
      rw [if_pos (by norm_num)]
      by_cases hn : (0 : Int) < (n : Nat)
      · rw [if_pos hn]
        have : ((n : Int) - 0 - 1) / 1 = (n : Int) - 0 - 1 := Int.ediv_one _
        rw [this]
        omega
      · rw [if_neg hn]
        omega
    show pyRange 0 (n : Int) 1 = (List.range n).map (fun i : Nat => (i : Int))
    rw [pyRange, hlen]
    apply List.map_congr_left
    intro i _
    ring

/-- C10 witness: `range(-3, step=2)` yields the empty sequence. -/
theorem range_single_argument_witness :
    lcRange (-3) none 2 = [] :=
  (range_single_argument (-3) 2 0).2.1 (by decide) (by decide)

/-! ## Lemmas for `group_by` -/

theorem group_by_append [DecidableEq κ] (f : α → κ) (s : List α) (x : α) :
    group_by f (s ++ [x]) = insertGroup (f x) x (group_by f s) := by
  simp [group_by, List.foldl_append]

theorem insertGroup_not_mem [DecidableEq κ] (k : κ) (x : α) (l : List (κ × List α))
    (h : k ∉ l.map Prod.fst) : insertGroup k x l = l ++ [(k, [x])] := by
  induction l with
  | nil => rfl
  | cons kg rest ih =>
    obtain ⟨k', g⟩ := kg
    have h1 : ¬ k' = k := by
      intro he
      exact h (by simp [he])
    have h2 : k ∉ rest.map Prod.fst := by
      intro hm
      exact h (by simp [hm])
    simp [insertGroup, h1, ih h2]

theorem insertGroup_mem_map [DecidableEq κ] (k : κ) (x : α) (g : κ → List α) :
    ∀ ks : List κ, ks.Nodup → k ∈ ks →
      insertGroup k x (ks.map (fun k' => (k', g k'))) =
        ks.map (fun k' => (k', g k' ++ if k' = k then [x] else [])) := by
  intro ks
  induction ks with
  | nil => intro _ hmem; cases hmem
  | cons k0 ks ih =>
    intro hnd hmem
    rw [List.nodup_cons] at hnd
    by_cases h0 : k0 = k
    · subst h0
      have htail : ks.map (fun k' => (k', g k')) =
          ks.map (fun k' => (k', g k' ++ if k' = k0 then [x] else [])) := by
        apply List.map_congr_left
        intro k' hk'
        have hne : ¬ k' = k0 := fun he => hnd.1 (he ▸ hk')
        simp [hne]
      simp only [List.map_cons, insertGroup, if_pos rfl]
      rw [← htail]
      simp
    · have hmem' : k ∈ ks := by
        rcases List.mem_cons.mp hmem with h | h
        · exact absurd h.symm h0
        · exact h
      simp only [List.map_cons, insertGroup, if_neg h0]
      rw [ih hnd.2 hmem']
      simp [h0]

theorem mem_firstSeen [DecidableEq κ] (k : κ) : ∀ l : List κ, k ∈ firstSeen l ↔ k ∈ l := by
  intro l
  induction l with
  | nil => simp [firstSeen]
  | cons k0 ks ih =>
    by_cases h : k = k0 <;> simp [firstSeen, List.mem_filter, ih, h]

theorem nodup_firstSeen [DecidableEq κ] : ∀ l : List κ, (firstSeen l).Nodup := by
  intro l
  induction l with
  | nil => simp [firstSeen]
  | cons k0 ks ih =>
    rw [firstSeen, List.nodup_cons]
    refine ⟨?_, List.Nodup.filter _ ih⟩
    intro hmem
    have h := (List.mem_filter.mp hmem).2
    simp at h

theorem firstSeen_append [DecidableEq κ] (k : κ) : ∀ l : List κ,
    firstSeen (l ++ [k]) = if k ∈ l then firstSeen l else firstSeen l ++ [k] := by
  intro l
  induction l with
  | nil => simp [firstSeen]
  | cons k0 ks ih =>
    by_cases hk : k ∈ ks
    · rw [List.cons_append, firstSeen, ih, if_pos hk, if_pos (by simp [hk]), firstSeen]
    · by_cases h0 : k = k0
      · rw [List.cons_append, firstSeen, ih, if_neg hk, if_pos (by simp [h0])]
        subst h0
        rw [firstSeen, List.filter_append]
        simp
      · rw [List.cons_append, firstSeen, ih, if_neg hk,
          if_neg (by simp [h0, hk]), firstSeen, List.filter_append]
        simp [h0]

theorem map_fst_map_pair (g : κ → List α) (l : List κ) :
    (l.map (fun k => (k, g k))).map Prod.fst = l := by
  induction l with
  | nil => rfl
  | cons k l ih => simp [ih]

theorem group_by_characterization [DecidableEq κ] (f : α → κ) (s : List α) :
    group_by f s =
      (firstSeen (s.map f)).map (fun k => (k, s.filter (fun y => f y = k))) := by
  induction s using List.reverseRecOn with
  | nil => rfl
  | append_singleton s x ih =>
    rw [group_by_append, ih, List.map_append, List.map_cons, List.map_nil,
      firstSeen_append]
    by_cases hmem : f x ∈ s.map f
    · rw [if_pos hmem]
      rw [insertGroup_mem_map (f x) x _ _ (nodup_firstSeen _) ((mem_firstSeen _ _).mpr hmem)]
      apply List.map_congr_left
      intro k' _
      rw [List.filter_append]
      by_cases he : f x = k'
      · subst he
        simp [List.filter_cons]
      · have he' : ¬ k' = f x := fun h => he h.symm
        simp [List.filter_cons, he, he']
    · rw [if_neg hmem]
      have hnot : f x ∉ ((firstSeen (s.map f)).map
          (fun k => (k, s.filter (fun y => f y = k)))).map Prod.fst := by
        have hfst := map_fst_map_pair (fun k => s.filter (fun y => decide (f y = k)))
          (firstSeen (s.map f))
        rw [hfst, mem_firstSeen]
        exact hmem
      rw [insertGroup_not_mem _ _ _ hnot, List.map_append, List.map_cons, List.map_nil]
      congr 1
      · apply List.map_congr_left
        intro k' hk'
        have hk's : k' ∈ s.map f := (mem_firstSeen _ _).mp hk'
        have hne : ¬ f x = k' := fun he => hmem (he ▸ hk's)
        rw [List.filter_append]
        simp [List.filter_cons, hne]
      · have hfempty : s.filter (fun y => decide (f y = f x)) = [] := by
          rw [List.filter_eq_nil_iff]
          intro y hy
          simp only [decide_eq_true_eq]
          intro he
          exact hmem (he ▸ List.mem_map_of_mem f hy)
        rw [List.filter_append]
        simp [List.filter_cons, hfempty]

theorem insertGroup_flatten_perm [DecidableEq κ] (k : κ) (x : α) :
    ∀ l : List (κ × List α),
      (((insertGroup k x l).map Prod.snd).flatten).Perm
        ((l.map Prod.snd).flatten ++ [x]) := by
  intro l
  induction l with
  | nil => simp [insertGroup]
  | cons kg rest ih =>
    obtain ⟨k', g⟩ := kg
    by_cases h : k' = k
    · simp only [insertGroup, if_pos h, List.map_cons, List.flatten_cons]
      rw [List.append_assoc, List.append_assoc]
      exact List.Perm.append_left g List.perm_append_comm
    · simp only [insertGroup, if_neg h, List.map_cons, List.flatten_cons]
      rw [List.append_assoc]
      exact List.Perm.append_left g ih

theorem group_by_flatten_perm [DecidableEq κ] (f : α → κ) (s : List α) :
    (((group_by f s).map Prod.snd).flatten).Perm s := by
  induction s using List.reverseRecOn with
  | nil => simp [group_by]
  | append_singleton s x ih =>
    rw [group_by_append]
    exact (insertGroup_flatten_perm (f x) x (group_by f s)).trans (ih.append_right [x])

/-- C6 counterexample: for the source `[0, 1, 2]` with key function
`x % 2`, `group_by` returns `{0: [0, 2], 1: [1]}`; concatenating the
values in key first-seen order gives `[0, 2, 1]`, which is not the
source sequence `[0, 1, 2]` — the concatenation reorders elements whose
keys interleave, so it does not reproduce S exactly. -/
theorem group_by_concat_counterexample :
    ((group_by (fun x : Int => x % 2) [0, 1, 2]).map Prod.snd).flatten = [0, 2, 1] ∧
    ((group_by (fun x : Int => x % 2) [0, 1, 2]).map Prod.snd).flatten ≠ [0, 1, 2] := by
  decide

/-- C6 (amended): for every finite sequence and every key function,
`group_by(key_func)` returns a mapping whose keys appear in
first-occurrence order and whose value for each key is the ordered
sublist of the source elements sharing that key (the mapping equals,
entry for entry, the first-seen key list paired with the matching
filtered sublists); concatenating the values in key first-seen order
yields a permutation of the source — a partition with no loss or
duplication — though not necessarily the source sequence itself. -/
theorem group_by_partition [DecidableEq κ] (f : α → κ) (s : List α) :
    group_by f s =
      (firstSeen (s.map f)).map (fun k => (k, s.filter (fun y => f y = k))) ∧
    (((group_by f s).map Prod.snd).flatten).Perm s :=
  ⟨group_by_characterization f s, group_by_flatten_perm f s⟩

/-- C8 counterexample: a `map` over a directly wrapped restartable range
is not itself restartable: the `map` result wraps a generator
expression, so its first full iteration yields the mapped elements and a
second iteration yields nothing rather than restarting. -/
theorem map_restart_counterexample :
    (drainLC (mapLC (fun x : Int => x + 1) (PySource.restartable [0, 1, 2]))).1 = [1, 2, 3] ∧
    (drainLC (drainLC (mapLC (fun x : Int => x + 1)
      (PySource.restartable [0, 1, 2]))).2).1 = [] ∧
    (([] : List Int) ≠ [1, 2, 3]) := by
  refine ⟨rfl, rfl, by decide⟩

/-- C8 (amended): iteration is delegated to the wrapped producer, so a
`LazyCollection` is exactly as restartable as the object it directly
wraps: draining a wrapped restartable source leaves it intact (a second
drain yields the same elements), while a wrapped generator is single-pass
(a second drain yields nothing).  But every operator-produced sequence
(`map`, `filter`) wraps a freshly created generator object, so it is
single-pass even when the upstream source is restartable: the first
drain yields the transformed elements and any further drain yields
nothing. -/
theorem single_pass_inherited (d r : List α) (t : α → β) (p : α → Bool) (src : PySource α) :
    drainLC (PySource.restartable d) = (d, PySource.restartable d) ∧
    (drainLC (drainLC (PySource.generator r)).2).1 = [] ∧
    (drainLC (mapLC t src)).1 = src.elems.map t ∧
    (drainLC (drainLC (mapLC t src)).2).1 = [] ∧
    (drainLC (filterLC p src)).1 = src.elems.filter p ∧
    (drainLC (drainLC (filterLC p src)).2).1 = [] :=
  ⟨rfl, rfl, rfl, rfl, rfl, rfl⟩

end LazyCollection
